import Mathlib

/-!
Verification of the frame-table and directory-layer core of a Pintos-style
teaching OS, against a shallow embedding of `vm/frame.c` and
`filesys/directory.c`.

Frames are identified by natural numbers (standing for the immutable kernel
addresses handed out by the boot-time pool drain).  Virtual pages are likewise
identified by naturals, and the external page layer's behaviour is a parameter
`pe : Nat → Bool` standing for `page_evict`.
-/

namespace Pintos

/-! ## Frame table (vm/frame.c)

`struct frame` carries a nullable back-reference to the installed page and a
pinned flag; the kernel address is the frame's identity and is kept outside the
record.  `struct frame_table` holds the two membership lists; the single table
mutex serialises every operation, so each C function is embedded as a pure
state transformer describing its whole critical section. -/

structure Frame where
  page : Option Nat
  pinned : Bool
deriving DecidableEq

structure FTState where
  frames : Nat → Frame
  free : List Nat
  allocated : List Nat

/-- Point update of the frame array. -/
def setFrame (st : FTState) (f : Nat) (fr : Frame) : FTState :=
  { st with frames := fun g => if g = f then fr else st.frames g }

/-- `list_remove (&frame->elem)` removes the frame from whichever membership
list currently holds it; erasing from both lists is equivalent because a frame
occurs in at most one. -/
def listRemove (st : FTState) (f : Nat) : FTState :=
  { st with free := st.free.erase f, allocated := st.allocated.erase f }

/-- `frame_init`: drain the user pool into `free_frames` (frames `0..n-1`,
pushed back in order), with cleared back-references and pinned flags. -/
def frame_init (n : Nat) : FTState :=
  { frames := fun _ => { page := none, pinned := false }
    free := List.range n
    allocated := [] }

/-- `frame_free`: clear the back-reference and pinned flag, `list_remove` the
frame, and push it onto the back of `free_frames`. -/
def frame_free (st : FTState) (f : Nat) : FTState :=
  let st1 := listRemove (setFrame st f { page := none, pinned := false }) f
  { st1 with free := st1.free ++ [f] }

/-- `frame_pin`: set the pinned flag. -/
def frame_pin (st : FTState) (f : Nat) : FTState :=
  setFrame st f { st.frames f with pinned := true }

/-- `frame_unpin`: clear the pinned flag. -/
def frame_unpin (st : FTState) (f : Nat) : FTState :=
  setFrame st f { st.frames f with pinned := false }

/-- `frame_evict`: refuse if pinned; refuse if an installed page refuses
`page_evict`; otherwise clear the back-reference, `list_remove` the frame, and
return true.  Returns the C function's boolean result with the table state. -/
def frame_evict (pe : Nat → Bool) (st : FTState) (f : Nat) : Bool × FTState :=
  if (st.frames f).pinned then (false, st)
  else
    match (st.frames f).page with
    | some p =>
        if pe p then
          (true, listRemove (setFrame st f { st.frames f with page := none }) f)
        else (false, st)
    | none => (true, listRemove (setFrame st f { st.frames f with page := none }) f)

/-- The scan of `frame_pick_and_evict`: walk the allocated list in insertion
order, attempting `frame_evict` on each; the first success is returned.
Failed attempts leave the state untouched, so each attempt runs on `st`. -/
def scanEvict (pe : Nat → Bool) (st : FTState) : List Nat → Option (Nat × FTState)
  | [] => none
  | f :: rest =>
      match frame_evict pe st f with
      | (true, st') => some (f, st')
      | (false, _) => scanEvict pe st rest

/-- `frame_pick_and_evict`: scan `allocated_frames`; `none` is the PANIC
(out-of-memory) outcome, which also covers the empty-list assertion. -/
def frame_pick_and_evict (pe : Nat → Bool) (st : FTState) : Option (Nat × FTState) :=
  scanEvict pe st st.allocated

/-- `frame_alloc`: pop the back of `free_frames` if non-empty, otherwise pick
and evict; then set the pinned flag and push the frame onto the back of
`allocated_frames`.  `none` is the fatal out-of-memory PANIC. -/
def frame_alloc (pe : Nat → Bool) (st : FTState) : Option (Nat × FTState) :=
  match st.free.getLast? with
  | some f =>
      let st1 := { st with free := st.free.dropLast }
      let st2 := setFrame st1 f { st1.frames f with pinned := true }
      some (f, { st2 with allocated := st2.allocated ++ [f] })
  | none =>
      match frame_pick_and_evict pe st with
      | none => none
      | some (f, st') =>
          let st2 := setFrame st' f { st'.frames f with pinned := true }
          some (f, { st2 with allocated := st2.allocated ++ [f] })

/-! ### Claim C2: the membership invariant

The frame-table operations a client can perform between two quiescent points.
`frame_free`, `frame_pin` and `frame_unpin` take a frame the caller owns,
i.e. one currently in the allocated list (callers only hold frames handed out
by `frame_alloc`); the guard makes that precondition explicit.  A PANIC
outcome of `frame_alloc` is modelled as leaving the table unchanged. -/

inductive FOp where
  | alloc (pe : Nat → Bool)
  | free (f : Nat)
  | pin (f : Nat)
  | unpin (f : Nat)

def stepOp (st : FTState) : FOp → FTState
  | .alloc pe =>
      match frame_alloc pe st with
      | some (_, st') => st'
      | none => st
  | .free f => if f ∈ st.allocated then frame_free st f else st
  | .pin f => if f ∈ st.allocated then frame_pin st f else st
  | .unpin f => if f ∈ st.allocated then frame_unpin st f else st

def runOps : FTState → List FOp → FTState
  | st, [] => st
  | st, op :: ops => runOps (stepOp st op) ops

/-- The spec's frame-table invariant: every frame of the table is in exactly
one of the two lists, and free frames have no back-reference and are not
pinned. -/
def FTInv (n : Nat) (st : FTState) : Prop :=
  (∀ f, f ∈ st.free ++ st.allocated ↔ f < n) ∧
  (st.free ++ st.allocated).Nodup ∧
  (∀ f ∈ st.free, (st.frames f).page = none ∧ (st.frames f).pinned = false)

/-! ## Directory layer (filesys/directory.c)

Inodes are identified by their sector number.  A directory inode's content is
its dense entry array, embedded as a list of `dir_entry` records; byte offsets
`ofs = k * sizeof (struct dir_entry)` become list indices `k`, and
`inode_read_at` returning a short read exactly at end of file becomes running
off the end of the list.  The inode layer (not part of the sources; its
interface is consumed per spec section 6) is embedded as a disk map carrying,
for each sector, the directory flag, the open count, the removed mark, and the
entry array. -/

/-- `NAME_MAX` from `filesys/directory.h` (header not in the sources; the
standard Pintos value, the spec leaves it implementation-defined). -/
def NAME_MAX : Nat := 14

structure DirEntry where
  inode_sector : Nat
  name : String
  in_use : Bool
deriving DecidableEq

structure Inode where
  isdir : Bool
  openCount : Nat
  removed : Bool
  entries : List DirEntry
deriving DecidableEq

structure FS where
  disk : Nat → Option Inode

def setInode (fs : FS) (s : Nat) (i : Inode) : FS :=
  ⟨fun k => if k = s then some i else fs.disk k⟩

/-- `inode_open`: succeeds iff the sector holds an inode; bumps its open
count, returning the handle (the inode value seen through it). -/
def inode_open (fs : FS) (s : Nat) : Option Inode × FS :=
  match fs.disk s with
  | some i =>
      (some { i with openCount := i.openCount + 1 },
       setInode fs s { i with openCount := i.openCount + 1 })
  | none => (none, fs)

/-- `inode_close`: drops one open count. -/
def inode_close (fs : FS) (s : Nat) : FS :=
  match fs.disk s with
  | some i => setInode fs s { i with openCount := i.openCount - 1 }
  | none => fs

/-- `inode_remove`: mark the inode for deletion. -/
def inode_remove (fs : FS) (s : Nat) : FS :=
  match fs.disk s with
  | some i => setInode fs s { i with removed := true }
  | none => fs

/-- The entry array a directory handle on sector `d` reads through
`inode_read_at`. -/
def entriesOf (fs : FS) (d : Nat) : List DirEntry :=
  match fs.disk d with
  | some i => i.entries
  | none => []

def removedFlag (fs : FS) (s : Nat) : Bool :=
  match fs.disk s with
  | some i => i.removed
  | none => false

/-- The scan of the static `lookup` helper, generalised over the index of the
first slot scanned: first in-use entry whose name compares equal, with its
slot index. -/
def lookupFrom (name : String) : List DirEntry → Nat → Option (DirEntry × Nat)
  | [], _ => none
  | e :: rest, i =>
      if e.in_use && e.name == name then some (e, i)
      else lookupFrom name rest (i + 1)

/-- `lookup (dir, name, &e, &ofsp)`: scan the directory's entry array from
offset 0. -/
def lookup (fs : FS) (d : Nat) (name : String) : Option (DirEntry × Nat) :=
  lookupFrom name (entriesOf fs d) 0

/-- `dir_lookup`: on a hit, open the entry's inode; the first component is
the opened inode's sector (`none` both for a miss and for a failed open,
i.e. the C function's `false` outcome). -/
def dir_lookup (fs : FS) (d : Nat) (name : String) : Option Nat × FS :=
  match lookup fs d name with
  | some (e, _) =>
      match inode_open fs e.inode_sector with
      | (some _, fs') => (some e.inode_sector, fs')
      | (none, fs') => (none, fs')
  | none => (none, fs)

/-- The free-slot scan of `dir_add`: index of the first not-in-use slot, or
the end of file when every slot is in use. -/
def freeSlotIdx : List DirEntry → Nat
  | [] => 0
  | e :: rest => if e.in_use then freeSlotIdx rest + 1 else 0

/-- `inode_write_at` of one whole entry at slot `i`: overwrite in place, or
append when writing at end of file (the file is extended). -/
def writeEntry (l : List DirEntry) (i : Nat) (e : DirEntry) : List DirEntry :=
  if i < l.length then l.set i e else l ++ [e]

/-- `strlcpy` into the fixed `name[NAME_MAX + 1]` field: keeps at most
`NAME_MAX` characters. -/
def strlcpyTrunc (s : String) : String :=
  ⟨s.data.take NAME_MAX⟩

/-- `dir_add`: reject an empty or over-long name; reject a present name;
write a fresh in-use entry into the first free slot (or append at EOF). -/
def dir_add (fs : FS) (d : Nat) (name : String) (sector : Nat) : Bool × FS :=
  if name = "" ∨ NAME_MAX < name.length then (false, fs)
  else
    match lookup fs d name with
    | some _ => (false, fs)
    | none =>
        match fs.disk d with
        | none => (false, fs)
        | some di =>
            let e : DirEntry :=
              { in_use := true, name := strlcpyTrunc name, inode_sector := sector }
            (true, setInode fs d
              { di with entries := writeEntry di.entries (freeSlotIdx di.entries) e })

/-- `dir_empty`: no in-use entry besides those named `.` and `..`. -/
def dir_empty (fs : FS) (d : Nat) : Bool :=
  (entriesOf fs d).all fun e => !e.in_use || e.name == "." || e.name == ".."

/-- `dir_remove`: locate the entry, open its inode; for a directory refuse
unless the open count (including the handle just opened here) is 1 and the
directory is empty; clear the in-use flag on disk; mark the inode for
deletion; close the handle on every path. -/
def dir_remove (fs : FS) (d : Nat) (name : String) : Bool × FS :=
  match lookup fs d name with
  | none => (false, fs)
  | some (e, ofs) =>
      match inode_open fs e.inode_sector with
      | (none, _) => (false, fs)
      | (some ino, fs1) =>
          if ino.isdir && (decide (1 < ino.openCount) || !dir_empty fs1 e.inode_sector) then
            (false, inode_close fs1 e.inode_sector)
          else
            match fs1.disk d with
            | none => (false, inode_close fs1 e.inode_sector)
            | some di =>
                let fs2 := setInode fs1 d
                  { di with entries := di.entries.set ofs { e with in_use := false } }
                let fs3 := inode_remove fs2 e.inode_sector
                (true, inode_close fs3 e.inode_sector)

def fileEntryW : DirEntry := { inode_sector := 5, name := "x", in_use := true }

def fileInodeW : Inode := { isdir := false, openCount := 3, removed := false, entries := [] }

def rootInodeW : Inode :=
  { isdir := true, openCount := 0, removed := false, entries := [fileEntryW] }

def fsW : FS :=
  ⟨fun k => if k = 1 then some rootInodeW else if k = 5 then some fileInodeW else none⟩

def subdirEntryW : DirEntry := { inode_sector := 7, name := "sub", in_use := true }

def subdirInodeW : Inode :=
  { isdir := true, openCount := 1, removed := false, entries := [] }

def rootInodeW2 : Inode :=
  { isdir := true, openCount := 0, removed := false, entries := [subdirEntryW] }

def fsW2 : FS :=
  ⟨fun k => if k = 1 then some rootInodeW2 else if k = 7 then some subdirInodeW else none⟩

/-- The entry `dir_add` writes for name `n` and sector `s`. -/
def newEntry (n : String) (s : Nat) : DirEntry :=
  { in_use := true, name := strlcpyTrunc n, inode_sector := s }

def emptyRootW : Inode :=
  { isdir := true, openCount := 0, removed := false, entries := [] }

def fileInodeW3 : Inode :=
  { isdir := false, openCount := 0, removed := false, entries := [] }

def fsW3 : FS :=
  ⟨fun k => if k = 1 then some emptyRootW else if k = 5 then some fileInodeW3 else none⟩

/-! ## Path resolution: dir_open_dirs

The traversal loop of `dir_open_dirs` consumes at least one character of the
remaining filepath per iteration, so it is embedded with an explicit fuel
argument initialised to the filepath length; with that much fuel the
zero-fuel case is unreachable.  Open counts along the walk are not tracked:
they never influence which handle (or `NULL`) is returned. -/

/-- `ROOT_DIR_SECTOR` from `filesys/filesys.h` (header not in the sources).
Modelled from the spec: the well-known root sector; the value is arbitrary. -/
def ROOT_DIR_SECTOR : Nat := 1

/-- `strchr (filepath, '/')`: index of the first slash. -/
def findSlash : List Char → Option Nat
  | [] => none
  | c :: rest => if c = '/' then some 0 else (findSlash rest).map (· + 1)

/-- `dir_open` succeeds on the inode at `s` iff it exists and is a
directory. -/
def isDirSector (fs : FS) (s : Nat) : Bool :=
  match fs.disk s with
  | some i => i.isdir
  | none => false

/-- One lookup step of the traversal (`dir_lookup` under the parent's lock):
the sector of the inode opened for `name`, or `none` when the name is absent
or the inode fails to open. -/
def resolveStep (fs : FS) (d : Nat) (name : String) : Option Nat :=
  match lookup fs d name with
  | some (e, _) => if (fs.disk e.inode_sector).isSome then some e.inode_sector else none
  | none => none

/-- The `while (next_slash = strchr (filepath, '/'))` loop of
`dir_open_dirs`: reject a trailing slash, skip consecutive slashes, reject an
over-long component, look the component up, descend into it if it is a
directory. -/
def travelF (fs : FS) : Nat → Nat → List Char → Option Nat
  | 0, d, fp =>
      (match findSlash fp with
       | none => some d
       | some _ => none)
  | fuel + 1, d, fp =>
      match findSlash fp with
      | none => some d
      | some i =>
          if i + 1 = fp.length then none
          else if i = 0 then travelF fs fuel d (fp.drop 1)
          else if NAME_MAX < i then none
          else
            match resolveStep fs d (String.mk (fp.take i)) with
            | none => none
            | some s =>
                if isDirSector fs s then travelF fs fuel s (fp.drop (i + 1))
                else none

/-- `dir_open_dirs`: absolute paths start at the root (opened via
`dir_open_root`), relative ones at the caller's working directory `cwd`
(reopened); then run the traversal loop on the remaining characters. -/
def dir_open_dirs (fs : FS) (cwd : Nat) (filepath : String) : Option Nat :=
  match filepath.data with
  | [] => if isDirSector fs cwd then travelF fs 0 cwd [] else none
  | c :: rest =>
      if c = '/' then
        (if isDirSector fs ROOT_DIR_SECTOR then
          travelF fs rest.length ROOT_DIR_SECTOR rest
        else none)
      else
        (if isDirSector fs cwd then
          travelF fs (c :: rest).length cwd (c :: rest)
        else none)

/-! ### Claims C7 and C8: slash handling and component length -/

def rootOnlyFS : FS := ⟨fun k => if k = 1 then some emptyRootW else none⟩

/-! ## Claim C3: locking discipline of the directory operations

Each directory operation is abstracted to its sequence of lock events and
slot-array accesses, transcribed from `directory.c` in program order; locks
are identified by the inode they guard, and each `inode_read_at` /
`inode_write_at` of the entry array is a `touch` of that inode's lock.  An
operation respects the discipline when every `touch` happens while the
corresponding lock is held.  Scan lengths are parameters (`n` entries read),
so the theorems cover every directory size. -/

inductive LEv where
  | acq (l : Nat)
  | rel (l : Nat)
  | touch (l : Nat)
deriving DecidableEq

/-- Run a trace, tracking the multiset of held locks; `false` as soon as a
slot access happens without its lock held. -/
def locked : List Nat → List LEv → Bool
  | _, [] => true
  | held, LEv.acq l :: es => locked (l :: held) es
  | held, LEv.rel l :: es => locked (held.erase l) es
  | held, LEv.touch l :: es => held.contains l && locked held es

def wellLocked (t : List LEv) : Bool := locked [] t

/-- The scan of the static `lookup` helper: `n` entry reads, no lock
events (directory.c lines 161-182). -/
def lookup_evs (l n : Nat) : List LEv := List.replicate n (LEv.touch l)

/-- `dir_add` (lines 227-268): acquire, existence scan, free-slot scan, slot
write, release. -/
def dir_add_evs (l n1 n2 : Nat) : List LEv :=
  LEv.acq l :: (lookup_evs l n1 ++ List.replicate n2 (LEv.touch l) ++
    [LEv.touch l, LEv.rel l])

/-- `dir_remove` of a file entry (lines 273-325): acquire, lookup scan, slot
write, release. -/
def dir_remove_file_evs (p n1 : Nat) : List LEv :=
  LEv.acq p :: (lookup_evs p n1 ++ [LEv.touch p, LEv.rel p])

/-- `dir_remove` of a directory entry: additionally runs `dir_empty` on the
removed directory, which takes the child's own lock for its scan. -/
def dir_remove_dir_evs (p c n1 n2 : Nat) : List LEv :=
  LEv.acq p :: (lookup_evs p n1 ++
    (LEv.acq c :: (List.replicate n2 (LEv.touch c) ++ [LEv.rel c])) ++
    [LEv.touch p, LEv.rel p])

/-- `dir_readdir` (lines 330-348): acquire, cursor scan, release. -/
def dir_readdir_evs (l n : Nat) : List LEv :=
  LEv.acq l :: (List.replicate n (LEv.touch l) ++ [LEv.rel l])

/-- `dir_empty` (lines 352-371): acquire, scan, release. -/
def dir_empty_evs (l n : Nat) : List LEv :=
  LEv.acq l :: (List.replicate n (LEv.touch l) ++ [LEv.rel l])

/-- One step of `dir_open_dirs` (lines 111-115): the parent lock is acquired,
`dir_lookup` runs its `lookup` scan, the lock is released — this is the
code path by which `lookup` is reached via `dir_lookup`. -/
def dir_open_dirs_step_evs (p n : Nat) : List LEv :=
  LEv.acq p :: (lookup_evs p n ++ [LEv.rel p])

/-! ### Claim C9: pinning is boolean, not counted -/

/-- Claim C9: for every frame in every frame-table state, the sequence
`frame_pin f; frame_pin f; frame_unpin f` leaves `f` unpinned — the pinned
flag is boolean, not a counter. -/
theorem pin_pin_unpin_unpinned (st : FTState) (f : Nat) :
    ((frame_unpin (frame_pin (frame_pin st f) f) f).frames f).pinned = false := by
  simp [frame_unpin, frame_pin, setFrame]

/-! ### Claim C4: the frame_evict contract -/

/-- Claim C4: `frame_evict` returns false with the frame-table state unchanged
when the frame is pinned, or when the installed page refuses eviction; on
success it clears the frame's back-reference, removes the frame from the
allocated list, and returns true. -/
theorem frame_evict_spec (pe : Nat → Bool) (st : FTState) (f : Nat) :
    ((st.frames f).pinned = true → frame_evict pe st f = (false, st)) ∧
    (∀ p, (st.frames f).page = some p → pe p = false →
      frame_evict pe st f = (false, st)) ∧
    (∀ st', frame_evict pe st f = (true, st') →
      (st'.frames f).page = none ∧ st'.allocated = st.allocated.erase f) := by
  refine ⟨fun hpin => ?_, fun p hp hpe => ?_, fun st' hev => ?_⟩
  · simp [frame_evict, hpin]
  · cases hpin : (st.frames f).pinned with
    | true => simp [frame_evict, hpin]
    | false => simp [frame_evict, hpin, hp, hpe]
  · cases hpin : (st.frames f).pinned with
    | true => simp [frame_evict, hpin] at hev
    | false =>
        cases hp : (st.frames f).page with
        | none =>
            simp [frame_evict, hpin, hp] at hev
            subst hev
            simp [listRemove, setFrame]
        | some p =>
            cases hpe : pe p with
            | false => simp [frame_evict, hpin, hp, hpe] at hev
            | true =>
                simp [frame_evict, hpin, hp, hpe] at hev
                subst hev
                simp [listRemove, setFrame]

/-- Witness for C4 at a concrete pinned frame: eviction is refused and the
state is returned unchanged. -/
theorem frame_evict_spec_witness :
    ((frame_pin (frame_init 1) 0).frames 0).pinned = true ∧
    frame_evict (fun _ => true) (frame_pin (frame_init 1) 0) 0 =
      (false, frame_pin (frame_init 1) 0) :=
  ⟨rfl, (frame_evict_spec (fun _ => true) (frame_pin (frame_init 1) 0) 0).1 rfl⟩

/-! ### Claim C1: the frame_alloc contract -/

theorem scanEvict_some (pe : Nat → Bool) (st : FTState) :
    ∀ l f st', scanEvict pe st l = some (f, st') →
      ∃ pre post, l = pre ++ f :: post ∧
        (∀ g ∈ pre, (frame_evict pe st g).1 = false) ∧
        frame_evict pe st f = (true, st') := by
  intro l
  induction l with
  | nil => intro f st' h; simp [scanEvict] at h
  | cons a rest ih =>
      intro f st' h
      rw [scanEvict] at h
      cases hev : frame_evict pe st a with
      | mk b st1 =>
          cases b with
          | true =>
              rw [hev] at h
              simp at h
              obtain ⟨rfl, rfl⟩ := h
              exact ⟨[], rest, rfl, by simp, hev⟩
          | false =>
              rw [hev] at h
              simp at h
              obtain ⟨pre, post, rfl, hpre, hf⟩ := ih f st' h
              exact ⟨a :: pre, post, rfl, by
                intro g hg
                rcases List.mem_cons.mp hg with rfl | hg
                · rw [hev]
                · exact hpre g hg, hf⟩

theorem scanEvict_none (pe : Nat → Bool) (st : FTState) :
    ∀ l, scanEvict pe st l = none ↔ ∀ f ∈ l, (frame_evict pe st f).1 = false := by
  intro l
  induction l with
  | nil => simp [scanEvict]
  | cons a rest ih =>
      rw [scanEvict]
      cases hev : frame_evict pe st a with
      | mk b st1 =>
          cases b with
          | true =>
              simp
              exact fun h => by rw [hev] at h; simp at h
          | false =>
              simp [ih]
              intro _
              rw [hev]

theorem mem_of_getLast?_eq_some {α : Type} {l : List α} {a : α}
    (h : l.getLast? = some a) : a ∈ l := by
  have hd := List.dropLast_append_getLast? a h
  rw [← hd]
  simp

/-- Claim C1: `frame_alloc` returns a frame with a cleared back-reference and
the pinned flag set, inserted into the allocated list; when the free list is
non-empty it takes a free frame (the back of the list), otherwise the first
frame of the allocated list, in insertion order, on which `frame_evict`
succeeds; and it panics (returns no frame) exactly when the free list is empty
and no allocated frame can be evicted.  The hypothesis is the free-list
invariant maintained by the table (free frames have no back-reference). -/
theorem frame_alloc_spec (pe : Nat → Bool) (st : FTState)
    (hfree : ∀ f ∈ st.free, (st.frames f).page = none) :
    (∀ f st', frame_alloc pe st = some (f, st') →
      (st'.frames f).page = none ∧ (st'.frames f).pinned = true ∧
      f ∈ st'.allocated ∧
      (st.free ≠ [] → st.free.getLast? = some f) ∧
      (st.free = [] → ∃ pre post, st.allocated = pre ++ f :: post ∧
        (∀ g ∈ pre, (frame_evict pe st g).1 = false) ∧
        (frame_evict pe st f).1 = true)) ∧
    (frame_alloc pe st = none ↔
      st.free = [] ∧ ∀ f ∈ st.allocated, (frame_evict pe st f).1 = false) := by
  constructor
  · intro f st' h
    rw [frame_alloc] at h
    cases hlast : st.free.getLast? with
    | some g =>
        rw [hlast] at h
        simp only [Option.some.injEq, Prod.mk.injEq] at h
        obtain ⟨hgf, hst⟩ := h
        subst hgf
        subst hst
        have hgmem : g ∈ st.free := mem_of_getLast?_eq_some hlast
        refine ⟨?_, ?_, ?_, fun _ => rfl, fun hnil => ?_⟩
        · simp [setFrame, hfree g hgmem]
        · simp [setFrame]
        · simp
        · rw [hnil] at hgmem; simp at hgmem
    | none =>
        rw [hlast] at h
        have hnil : st.free = [] := List.getLast?_eq_none_iff.mp hlast
        cases hpick : frame_pick_and_evict pe st with
        | none => rw [hpick] at h; simp at h
        | some fs =>
            obtain ⟨g, st1⟩ := fs
            rw [hpick] at h
            simp only [Option.some.injEq, Prod.mk.injEq] at h
            obtain ⟨hgf, hst⟩ := h
            subst hgf
            subst hst
            obtain ⟨pre, post, hsplit, hpre, hev⟩ :=
              scanEvict_some pe st st.allocated g st1 hpick
            have hpage : (st1.frames g).page = none :=
              ((frame_evict_spec pe st g).2.2 st1 hev).1
            refine ⟨?_, ?_, ?_, fun hne => absurd hnil hne, fun _ => ?_⟩
            · simp [setFrame, hpage]
            · simp [setFrame]
            · simp
            · exact ⟨pre, post, hsplit, hpre, by rw [hev]⟩
  · constructor
    · intro hnone
      rw [frame_alloc] at hnone
      cases hlast : st.free.getLast? with
      | some g => rw [hlast] at hnone; simp at hnone
      | none =>
          have hnil : st.free = [] := List.getLast?_eq_none_iff.mp hlast
          rw [hlast] at hnone
          cases hpick : frame_pick_and_evict pe st with
          | none =>
              exact ⟨hnil, (scanEvict_none pe st st.allocated).mp hpick⟩
          | some fs =>
              obtain ⟨a, b⟩ := fs
              rw [hpick] at hnone
              simp at hnone
    · intro hcond
      rw [frame_alloc]
      have hlast : st.free.getLast? = none :=
        List.getLast?_eq_none_iff.mpr hcond.1
      rw [hlast]
      have hscan : scanEvict pe st st.allocated = none :=
        (scanEvict_none pe st st.allocated).mpr hcond.2
      have hpick : frame_pick_and_evict pe st = none := hscan
      rw [hpick]

/-- Witness for C1 on a one-frame table: allocation pops the single free frame
and returns it pinned with no back-reference. -/
theorem frame_alloc_spec_witness :
    (∀ f ∈ (frame_init 1).free, ((frame_init 1).frames f).page = none) ∧
    (∀ f st', frame_alloc (fun _ => true) (frame_init 1) = some (f, st') →
      (st'.frames f).page = none ∧ (st'.frames f).pinned = true ∧
      f ∈ st'.allocated ∧
      ((frame_init 1).free ≠ [] → (frame_init 1).free.getLast? = some f) ∧
      ((frame_init 1).free = [] → ∃ pre post,
        (frame_init 1).allocated = pre ++ f :: post ∧
        (∀ g ∈ pre, (frame_evict (fun _ => true) (frame_init 1) g).1 = false) ∧
        (frame_evict (fun _ => true) (frame_init 1) f).1 = true)) :=
  ⟨by decide, (frame_alloc_spec (fun _ => true) (frame_init 1) (by decide)).1⟩

theorem frame_evict_true_state (pe : Nat → Bool) (st : FTState) (f : Nat)
    (st' : FTState) (h : frame_evict pe st f = (true, st')) :
    st' = listRemove (setFrame st f { st.frames f with page := none }) f := by
  cases hpin : (st.frames f).pinned with
  | true => simp [frame_evict, hpin] at h
  | false =>
      cases hp : (st.frames f).page with
      | none => simp [frame_evict, hpin, hp] at h; simp [hpin]; exact h.symm
      | some p =>
          cases hpe : pe p with
          | false => simp [frame_evict, hpin, hp, hpe] at h
          | true => simp [frame_evict, hpin, hp, hpe] at h; simp [hpin]; exact h.symm

theorem FTInv_of_perm (n : Nat) (st st' : FTState)
    (hperm : (st'.free ++ st'.allocated).Perm (st.free ++ st.allocated))
    (hfr : ∀ f ∈ st'.free, (st'.frames f).page = none ∧ (st'.frames f).pinned = false)
    (h : FTInv n st) : FTInv n st' := by
  obtain ⟨hmem, hnd, _⟩ := h
  exact ⟨fun f => (hperm.mem_iff).trans (hmem f), hperm.nodup_iff.mpr hnd, hfr⟩

theorem FTInv_init (n : Nat) : FTInv n (frame_init n) := by
  refine ⟨fun f => ?_, ?_, fun f hf => ?_⟩
  · simp [frame_init, List.mem_range]
  · simp [frame_init, List.nodup_range]
  · simp [frame_init]

theorem stepOp_preserves (n : Nat) (st : FTState) (op : FOp)
    (h : FTInv n st) : FTInv n (stepOp st op) := by
  obtain ⟨hmem, hnd, hfr⟩ := h
  have hdisj : st.free.Disjoint st.allocated := List.disjoint_of_nodup_append hnd
  cases op with
  | pin f =>
      rw [stepOp]
      by_cases hf : f ∈ st.allocated
      · simp only [hf, if_true]
        refine ⟨hmem, hnd, fun g hg => ?_⟩
        have hgf : g ≠ f := fun hgf => hdisj hg (hgf ▸ hf)
        simpa [frame_pin, setFrame, hgf] using hfr g hg
      · simp only [hf, if_false]
        exact ⟨hmem, hnd, hfr⟩
  | unpin f =>
      rw [stepOp]
      by_cases hf : f ∈ st.allocated
      · simp only [hf, if_true]
        refine ⟨hmem, hnd, fun g hg => ?_⟩
        have hgf : g ≠ f := fun hgf => hdisj hg (hgf ▸ hf)
        simpa [frame_unpin, setFrame, hgf] using hfr g hg
      · simp only [hf, if_false]
        exact ⟨hmem, hnd, hfr⟩
  | free f =>
      rw [stepOp]
      by_cases hf : f ∈ st.allocated
      · simp only [hf, if_true]
        have hfnotfree : f ∉ st.free := fun hin => hdisj hin hf
        have herase : st.free.erase f = st.free := List.erase_of_not_mem hfnotfree
        have hperm : ((st.free.erase f ++ [f]) ++ st.allocated.erase f).Perm
            (st.free ++ st.allocated) := by
          rw [herase, List.append_assoc]
          exact ((List.perm_cons_erase hf).symm).append_left st.free
        refine FTInv_of_perm n st _ ?_ ?_ ⟨hmem, hnd, hfr⟩
        · simpa [frame_free, listRemove, setFrame] using hperm
        · intro g hg
          have hg' : g ∈ st.free ++ [f] := by
            simpa [frame_free, listRemove, setFrame, herase] using hg
          rcases List.mem_append.mp hg' with hgm | hgm
          · have hne : g ≠ f := fun he => hfnotfree (he ▸ hgm)
            simpa [frame_free, listRemove, setFrame, hne] using hfr g hgm
          · simp at hgm
            subst hgm
            simp [frame_free, listRemove, setFrame]
      · simp only [hf, if_false]
        exact ⟨hmem, hnd, hfr⟩
  | alloc pe =>
      rw [stepOp]
      cases halloc : frame_alloc pe st with
      | none => exact ⟨hmem, hnd, hfr⟩
      | some fs =>
          obtain ⟨f, st'⟩ := fs
          rw [frame_alloc] at halloc
          cases hlast : st.free.getLast? with
          | some g =>
              rw [hlast] at halloc
              simp only [Option.some.injEq, Prod.mk.injEq] at halloc
              obtain ⟨hgf, hst⟩ := halloc
              subst hgf
              subst hst
              have hl : st.free.dropLast ++ [g] = st.free :=
                List.dropLast_append_getLast? g hlast
              have hfreesub : ∀ a ∈ st.free.dropLast, a ∈ st.free :=
                fun a ha => (List.dropLast_sublist st.free).subset ha
              have hfreend : st.free.Nodup := (List.nodup_append.mp hnd).1
              have hfnotdrop : g ∉ st.free.dropLast := by
                intro hin
                rw [← hl] at hfreend
                exact (List.disjoint_of_nodup_append hfreend) hin (by simp)
              have hperm : (st.free.dropLast ++ (st.allocated ++ [g])).Perm
                  (st.free ++ st.allocated) := by
                have h2 := (@List.perm_append_comm _ st.allocated
                  [g]).append_left st.free.dropLast
                have h3 : st.free.dropLast ++ ([g] ++ st.allocated) =
                    (st.free.dropLast ++ [g]) ++ st.allocated :=
                  (List.append_assoc _ _ _).symm
                rw [h3, hl] at h2
                exact h2
              refine FTInv_of_perm n st _ ?_ ?_ ⟨hmem, hnd, hfr⟩
              · simpa [setFrame] using hperm
              · intro a ha
                have ha' : a ∈ st.free.dropLast := by simpa [setFrame] using ha
                have hag : a ≠ g := fun he => hfnotdrop (he ▸ ha')
                simpa [setFrame, hag] using hfr a (hfreesub a ha')
          | none =>
              rw [hlast] at halloc
              have hnil : st.free = [] := List.getLast?_eq_none_iff.mp hlast
              cases hpick : frame_pick_and_evict pe st with
              | none => rw [hpick] at halloc; simp at halloc
              | some fs1 =>
                  obtain ⟨g, st1⟩ := fs1
                  rw [hpick] at halloc
                  simp only [Option.some.injEq, Prod.mk.injEq] at halloc
                  obtain ⟨hgf, hst⟩ := halloc
                  subst hgf
                  subst hst
                  obtain ⟨pre, post, hsplit, _, hev⟩ :=
                    scanEvict_some pe st st.allocated g st1 hpick
                  have hfmem : g ∈ st.allocated := by rw [hsplit]; simp
                  have hst1 := frame_evict_true_state pe st g st1 hev
                  subst hst1
                  have hperm : (((st.free.erase g) ++ (st.allocated.erase g ++ [g]))).Perm
                      (st.free ++ st.allocated) := by
                    rw [hnil]
                    simp only [List.erase_nil, List.nil_append]
                    have h1 : (st.allocated.erase g ++ [g]).Perm
                        (g :: st.allocated.erase g) := List.perm_append_comm
                    exact h1.trans (List.perm_cons_erase hfmem).symm
                  refine FTInv_of_perm n st _ ?_ ?_ ⟨hmem, hnd, hfr⟩
                  · simpa [setFrame, listRemove] using hperm
                  · intro a ha
                    simp only [setFrame, listRemove] at ha
                    rw [hnil] at ha
                    simp at ha

theorem FTInv_runOps (n : Nat) (ops : List FOp) :
    FTInv n (runOps (frame_init n) ops) := by
  suffices h : ∀ st, FTInv n st → FTInv n (runOps st ops) from
    h (frame_init n) (FTInv_init n)
  induction ops with
  | nil => intro st h; exact h
  | cons op ops ih =>
      intro st h
      exact ih (stepOp st op) (stepOp_preserves n st op h)

/-- Claim C2 counterexample: starting from a one-frame table, allocate the
frame, unpin it, then call `frame_evict` on it directly, as the claim's
operation sequence allows.  The eviction succeeds, and afterwards frame 0 is
in neither the free list nor the allocated list — refuting the claimed
free-XOR-allocated invariant for sequences that end with a direct
`frame_evict`. -/
theorem frame_evict_breaks_membership :
    (frame_evict (fun _ => true)
        (runOps (frame_init 1) [FOp.alloc (fun _ => true), FOp.unpin 0]) 0).1 = true ∧
    0 ∉ (frame_evict (fun _ => true)
        (runOps (frame_init 1) [FOp.alloc (fun _ => true), FOp.unpin 0]) 0).2.free ∧
    0 ∉ (frame_evict (fun _ => true)
        (runOps (frame_init 1) [FOp.alloc (fun _ => true), FOp.unpin 0]) 0).2.allocated := by
  refine ⟨rfl, ?_, ?_⟩ <;> decide

/-- Claim C2 (amended): after any sequence of completed frame-table operations
`frame_alloc` / `frame_free` / `frame_pin` / `frame_unpin` (the latter three
applied to currently allocated frames, the frames a caller can hold), every
frame of the table is in the free list XOR in the allocated list, and a frame
in the free list has a null back-reference and a cleared pinned flag.  A
direct `frame_evict` is excluded: on success it removes the frame from the
allocated list without adding it to the free list, leaving reinstallation to
its caller. -/
theorem frame_table_membership_inv (n : Nat) (ops : List FOp) (f : Nat)
    (hf : f < n) :
    (f ∈ (runOps (frame_init n) ops).free ↔
      f ∉ (runOps (frame_init n) ops).allocated) ∧
    (f ∈ (runOps (frame_init n) ops).free →
      ((runOps (frame_init n) ops).frames f).page = none ∧
      ((runOps (frame_init n) ops).frames f).pinned = false) := by
  obtain ⟨hmem, hnd, hfr⟩ := FTInv_runOps n ops
  have hdisj := List.disjoint_of_nodup_append hnd
  refine ⟨⟨fun hin hal => hdisj hin hal, fun hnal => ?_⟩, fun hin => hfr f hin⟩
  rcases List.mem_append.mp ((hmem f).mpr hf) with hin | hal
  · exact hin
  · exact absurd hal hnal

/-- Witness for the amended C2 on a fresh one-frame table. -/
theorem frame_table_membership_inv_witness :
    0 < 1 ∧
    ((0 ∈ (runOps (frame_init 1) []).free ↔
        0 ∉ (runOps (frame_init 1) []).allocated) ∧
      (0 ∈ (runOps (frame_init 1) []).free →
        ((runOps (frame_init 1) []).frames 0).page = none ∧
        ((runOps (frame_init 1) []).frames 0).pinned = false)) :=
  ⟨by decide, frame_table_membership_inv 1 [] 0 (by decide)⟩

/-! ### Filesystem state lemmas -/

theorem FS_ext (a b : FS) (h : ∀ k, a.disk k = b.disk k) : a = b := by
  cases a
  cases b
  simp only [FS.mk.injEq]
  funext k
  exact h k

theorem entriesOf_inode_open (fs : FS) (s t : Nat) :
    entriesOf (inode_open fs s).2 t = entriesOf fs t := by
  rw [inode_open]
  cases h : fs.disk s with
  | none => rfl
  | some i =>
      by_cases ht : t = s
      · subst ht; simp [entriesOf, setInode, h]
      · simp [entriesOf, setInode, ht]

theorem entriesOf_inode_close (fs : FS) (s t : Nat) :
    entriesOf (inode_close fs s) t = entriesOf fs t := by
  rw [inode_close]
  cases h : fs.disk s with
  | none => rfl
  | some i =>
      by_cases ht : t = s
      · subst ht; simp [entriesOf, setInode, h]
      · simp [entriesOf, setInode, ht]

theorem entriesOf_inode_remove (fs : FS) (s t : Nat) :
    entriesOf (inode_remove fs s) t = entriesOf fs t := by
  rw [inode_remove]
  cases h : fs.disk s with
  | none => rfl
  | some i =>
      by_cases ht : t = s
      · subst ht; simp [entriesOf, setInode, h]
      · simp [entriesOf, setInode, ht]

theorem removedFlag_inode_close (fs : FS) (s t : Nat) :
    removedFlag (inode_close fs s) t = removedFlag fs t := by
  rw [inode_close]
  cases h : fs.disk s with
  | none => rfl
  | some i =>
      by_cases ht : t = s
      · subst ht; simp [removedFlag, setInode, h]
      · simp [removedFlag, setInode, ht]

theorem removedFlag_inode_remove_self (fs : FS) (s : Nat) (i : Inode)
    (h : fs.disk s = some i) : removedFlag (inode_remove fs s) s = true := by
  rw [inode_remove, h]
  simp [removedFlag, setInode]

theorem dir_empty_inode_open (fs : FS) (s t : Nat) :
    dir_empty (inode_open fs s).2 t = dir_empty fs t := by
  rw [dir_empty, dir_empty, entriesOf_inode_open]

theorem inode_close_inode_open (fs : FS) (s : Nat) (i : Inode)
    (h : fs.disk s = some i) : inode_close (inode_open fs s).2 s = fs := by
  apply FS_ext
  intro k
  rw [inode_open, h]
  simp only [inode_close, setInode]
  by_cases hk : k = s
  · subst hk; simp [h]
  · simp [hk]

theorem lookup_disk_isSome (fs : FS) (d : Nat) (name : String) (e : DirEntry)
    (k : Nat) (h : lookup fs d name = some (e, k)) : ∃ di, fs.disk d = some di := by
  cases hd : fs.disk d with
  | some di => exact ⟨di, rfl⟩
  | none =>
      rw [lookup, entriesOf, hd] at h
      simp [lookupFrom] at h

/-! ### Claim C10: removing a file skips the emptiness and open-count checks -/

/-- Claim C10: when the in-use entry for `name` refers to a non-directory
inode that opens successfully, `dir_remove` succeeds regardless of the
inode's open count: the entry's in-use flag is cleared on disk and the inode
is marked for deletion. -/
theorem dir_remove_file_unchecked (fs : FS) (d : Nat) (n : String)
    (e : DirEntry) (k : Nat) (ino : Inode)
    (hl : lookup fs d n = some (e, k))
    (hi : fs.disk e.inode_sector = some ino)
    (hfile : ino.isdir = false) :
    (dir_remove fs d n).1 = true ∧
    entriesOf (dir_remove fs d n).2 d =
      (entriesOf fs d).set k { e with in_use := false } ∧
    removedFlag (dir_remove fs d n).2 e.inode_sector = true := by
  obtain ⟨di, hd⟩ := lookup_disk_isSome fs d n e k hl
  have hent : entriesOf fs d = di.entries := by rw [entriesOf, hd]
  have hio : inode_open fs e.inode_sector =
      (some { isdir := false, openCount := ino.openCount + 1,
              removed := ino.removed, entries := ino.entries },
       setInode fs e.inode_sector
         { isdir := false, openCount := ino.openCount + 1,
           removed := ino.removed, entries := ino.entries }) := by
    simp [inode_open, hi, hfile]
  obtain ⟨X, hstep, hXent⟩ : ∃ X,
      (setInode fs e.inode_sector
        { isdir := false, openCount := ino.openCount + 1,
          removed := ino.removed, entries := ino.entries }).disk d = some X ∧
      X.entries = entriesOf fs d := by
    by_cases hds : d = e.inode_sector
    · subst hds
      have hdi : di = ino := by rw [hd] at hi; exact Option.some.inj hi
      subst hdi
      exact ⟨{ isdir := false, openCount := di.openCount + 1,
               removed := di.removed, entries := di.entries },
             by simp [setInode], by rw [hent]⟩
    · exact ⟨di, by simp [setInode, hds, hd], hent.symm⟩
  simp only [dir_remove, hl, hio, Bool.false_and, Bool.false_eq_true, if_false,
    hstep]
  refine ⟨by trivial, ?_, ?_⟩
  · rw [entriesOf_inode_close, entriesOf_inode_remove]
    simp [entriesOf, setInode, hXent]
  · rw [removedFlag_inode_close]
    obtain ⟨W, hW⟩ : ∃ W,
        (setInode (setInode fs e.inode_sector
            { isdir := false, openCount := ino.openCount + 1,
              removed := ino.removed, entries := ino.entries }) d
          { X with entries := X.entries.set k { e with in_use := false } }).disk
          e.inode_sector = some W := by
      by_cases hsd : e.inode_sector = d
      · simp [setInode, hsd]
      · simp [setInode, hsd]
    exact removedFlag_inode_remove_self _ _ W hW

/-- Witness for C10: a file inode with open count 3 is removed anyway. -/
theorem dir_remove_file_unchecked_witness :
    lookup fsW 1 "x" = some (fileEntryW, 0) ∧
    ((dir_remove fsW 1 "x").1 = true ∧
      entriesOf (dir_remove fsW 1 "x").2 1 =
        (entriesOf fsW 1).set 0 { fileEntryW with in_use := false } ∧
      removedFlag (dir_remove fsW 1 "x").2 fileEntryW.inode_sector = true) :=
  ⟨by decide,
    dir_remove_file_unchecked fsW 1 "x" fileEntryW 0 fileInodeW
      (by decide) (by decide) (by decide)⟩

/-! ### Claim C6: removal of a directory entry is guarded -/

/-- Claim C6: when the entry for `name` refers to a directory inode,
`dir_remove` refuses — returning false with no side effects committed —
unless the inode's open count is exactly 1 at the check (i.e. nobody besides
the handle `dir_remove` itself just opened holds it, so the count before the
call is 0) and the directory has no in-use entry besides `.` and `..`; when
both conditions hold it clears the entry's in-use flag on disk and marks the
inode for deletion. -/
theorem dir_remove_dir_guard (fs : FS) (d : Nat) (n : String)
    (e : DirEntry) (k : Nat) (ino : Inode)
    (hl : lookup fs d n = some (e, k))
    (hi : fs.disk e.inode_sector = some ino)
    (hdir : ino.isdir = true) :
    ((1 ≤ ino.openCount ∨ dir_empty fs e.inode_sector = false) →
      dir_remove fs d n = (false, fs)) ∧
    (ino.openCount = 0 → dir_empty fs e.inode_sector = true →
      (dir_remove fs d n).1 = true ∧
      entriesOf (dir_remove fs d n).2 d =
        (entriesOf fs d).set k { e with in_use := false } ∧
      removedFlag (dir_remove fs d n).2 e.inode_sector = true) := by
  obtain ⟨di, hd⟩ := lookup_disk_isSome fs d n e k hl
  have hent : entriesOf fs d = di.entries := by rw [entriesOf, hd]
  have hio : inode_open fs e.inode_sector =
      (some { isdir := true, openCount := ino.openCount + 1,
              removed := ino.removed, entries := ino.entries },
       setInode fs e.inode_sector
         { isdir := true, openCount := ino.openCount + 1,
           removed := ino.removed, entries := ino.entries }) := by
    simp [inode_open, hi, hdir]
  have hde : dir_empty (setInode fs e.inode_sector
      { isdir := true, openCount := ino.openCount + 1,
        removed := ino.removed, entries := ino.entries }) e.inode_sector =
      dir_empty fs e.inode_sector := by
    simp [dir_empty, entriesOf, setInode, hi]
  constructor
  · intro hcase
    have hcond : (decide (1 < ino.openCount + 1) ||
        !dir_empty (setInode fs e.inode_sector
          { isdir := true, openCount := ino.openCount + 1,
            removed := ino.removed, entries := ino.entries }) e.inode_sector) = true := by
      rcases hcase with h1 | h2
      · have : 1 < ino.openCount + 1 := by omega
        simp [this]
      · simp [hde, h2]
    have hclose : (inode_open fs e.inode_sector).2 = setInode fs e.inode_sector
        { isdir := true, openCount := ino.openCount + 1,
          removed := ino.removed, entries := ino.entries } := by rw [hio]
    simp only [dir_remove, hl, hio, Bool.true_and, hcond, if_true]
    rw [← hclose, inode_close_inode_open fs e.inode_sector ino hi]
  · intro hc0 hemp
    have hlt : ¬(1 < ino.openCount + 1) := by omega
    have hcond : (decide (1 < ino.openCount + 1) ||
        !dir_empty (setInode fs e.inode_sector
          { isdir := true, openCount := ino.openCount + 1,
            removed := ino.removed, entries := ino.entries }) e.inode_sector) = false := by
      simp [hlt, hde, hemp]
    obtain ⟨X, hstep, hXent⟩ : ∃ X,
        (setInode fs e.inode_sector
          { isdir := true, openCount := ino.openCount + 1,
            removed := ino.removed, entries := ino.entries }).disk d = some X ∧
        X.entries = entriesOf fs d := by
      by_cases hds : d = e.inode_sector
      · subst hds
        have hdi : di = ino := by rw [hd] at hi; exact Option.some.inj hi
        subst hdi
        exact ⟨{ isdir := true, openCount := di.openCount + 1,
                 removed := di.removed, entries := di.entries },
               by simp [setInode], by rw [hent]⟩
      · exact ⟨di, by simp [setInode, hds, hd], hent.symm⟩
    simp only [dir_remove, hl, hio, Bool.true_and, hcond, Bool.false_eq_true,
      if_false, hstep]
    refine ⟨by trivial, ?_, ?_⟩
    · rw [entriesOf_inode_close, entriesOf_inode_remove]
      simp [entriesOf, setInode, hXent]
    · rw [removedFlag_inode_close]
      obtain ⟨W, hW⟩ : ∃ W,
          (setInode (setInode fs e.inode_sector
              { isdir := true, openCount := ino.openCount + 1,
                removed := ino.removed, entries := ino.entries }) d
            { X with entries := X.entries.set k { e with in_use := false } }).disk
            e.inode_sector = some W := by
        by_cases hsd : e.inode_sector = d
        · simp [setInode, hsd]
        · simp [setInode, hsd]
      exact removedFlag_inode_remove_self _ _ W hW

/-- Witness for C6: a subdirectory still open elsewhere (open count 1 before
the call) is refused, with the filesystem state returned unchanged. -/
theorem dir_remove_dir_guard_witness :
    lookup fsW2 1 "sub" = some (subdirEntryW, 0) ∧
    1 ≤ subdirInodeW.openCount ∧
    dir_remove fsW2 1 "sub" = (false, fsW2) :=
  ⟨by decide, by decide,
    (dir_remove_dir_guard fsW2 1 "sub" subdirEntryW 0 subdirInodeW
        (by decide) (by decide) (by decide)).1 (Or.inl (by decide))⟩

/-! ### Claim C5: add / lookup / remove round-trip -/

theorem writeEntry_cons (e : DirEntry) (l : List DirEntry) (j : Nat)
    (x : DirEntry) : writeEntry (e :: l) (j + 1) x = e :: writeEntry l j x := by
  rw [writeEntry, writeEntry]
  by_cases hj : j < l.length
  · rw [if_pos (by simpa using hj), if_pos hj]
    rfl
  · rw [if_neg (by simpa using hj), if_neg hj]
    rfl

theorem freeSlotIdx_le_length (l : List DirEntry) : freeSlotIdx l ≤ l.length := by
  induction l with
  | nil => simp [freeSlotIdx]
  | cons e rest ih =>
      rw [freeSlotIdx]
      by_cases he : e.in_use
      · simp only [he, if_true]
        simpa using ih
      · simp [he]

theorem set_writeEntry (l : List DirEntry) (k : Nat) (x y : DirEntry)
    (hk : k ≤ l.length) : (writeEntry l k x).set k y = writeEntry l k y := by
  rcases Nat.lt_or_ge k l.length with hlt | hge
  · rw [writeEntry, if_pos hlt, writeEntry, if_pos hlt]
    exact List.set_set x y l k
  · have hk : k = l.length := Nat.le_antisymm hk hge
    subst hk
    rw [writeEntry, if_neg (by omega), writeEntry, if_neg (by omega)]
    clear hge
    induction l with
    | nil => rfl
    | cons e rest ih =>
        simp only [List.cons_append, List.length_cons, List.set]
        exact congrArg (e :: ·) (ih (Nat.le_refl _))

theorem lookupFrom_writeEntry_hit (nm : String) (x : DirEntry)
    (hx : (x.in_use && x.name == nm) = true) :
    ∀ (l : List DirEntry) (i : Nat), lookupFrom nm l i = none →
      lookupFrom nm (writeEntry l (freeSlotIdx l) x) i =
        some (x, i + freeSlotIdx l) := by
  intro l
  induction l with
  | nil =>
      intro i _
      rw [freeSlotIdx, writeEntry]
      simp [lookupFrom, hx]
  | cons e rest ih =>
      intro i hnone
      rw [lookupFrom] at hnone
      have hne : (e.in_use && e.name == nm) = false := by
        cases hcond : (e.in_use && e.name == nm) with
        | false => rfl
        | true => rw [if_pos hcond] at hnone; exact absurd hnone (by simp)
      rw [if_neg (by simp [hne])] at hnone
      rw [freeSlotIdx]
      cases he : e.in_use with
      | false =>
          simp only [if_false, Bool.false_eq_true]
          have : writeEntry (e :: rest) 0 x = x :: rest := by
            rw [writeEntry, if_pos (by simp)]
            rfl
          rw [this, lookupFrom, if_pos hx]
          simp
      | true =>
          simp only [if_true, Bool.true_eq_false]
          rw [writeEntry_cons, lookupFrom, if_neg (by simp [hne])]
          rw [ih (i + 1) hnone]
          have : i + 1 + freeSlotIdx rest = i + (freeSlotIdx rest + 1) := by omega
          rw [this]

theorem lookupFrom_writeEntry_miss (nm : String) (y : DirEntry)
    (hy : y.in_use = false) :
    ∀ (l : List DirEntry) (k i : Nat), lookupFrom nm l i = none →
      lookupFrom nm (writeEntry l k y) i = none := by
  intro l
  induction l with
  | nil =>
      intro k i _
      rw [writeEntry]
      simp [lookupFrom, hy]
  | cons e rest ih =>
      intro k i hnone
      rw [lookupFrom] at hnone
      have hne : (e.in_use && e.name == nm) = false := by
        cases hcond : (e.in_use && e.name == nm) with
        | false => rfl
        | true => rw [if_pos hcond] at hnone; exact absurd hnone (by simp)
      rw [if_neg (by simp [hne])] at hnone
      cases k with
      | zero =>
          have : writeEntry (e :: rest) 0 y = y :: rest := by
            rw [writeEntry, if_pos (by simp)]
            rfl
          rw [this, lookupFrom, if_neg (by simp [hy])]
          exact hnone
      | succ k =>
          rw [writeEntry_cons, lookupFrom, if_neg (by simp [hne])]
          exact ih k (i + 1) hnone

theorem strlcpyTrunc_of_le (n : String) (h : n.length ≤ NAME_MAX) :
    strlcpyTrunc n = n := by
  cases n with
  | mk data =>
      rw [strlcpyTrunc]
      exact congrArg String.mk (List.take_of_length_le h)

/-- On a successful `dir_remove`, the parent's entry array afterwards is the
original with the looked-up slot's in-use flag cleared. -/
theorem dir_remove_true_entries (fs : FS) (d : Nat) (n : String)
    (e : DirEntry) (k : Nat) (hl : lookup fs d n = some (e, k)) :
    ∀ fs2, dir_remove fs d n = (true, fs2) →
      entriesOf fs2 d = (entriesOf fs d).set k { e with in_use := false } := by
  intro fs2 hrem
  rw [dir_remove, hl] at hrem
  simp only [] at hrem
  cases hdsk : fs.disk e.inode_sector with
  | none =>
      have hio : inode_open fs e.inode_sector = (none, fs) := by
        simp [inode_open, hdsk]
      rw [hio] at hrem
      simp at hrem
  | some i =>
      have hio : inode_open fs e.inode_sector =
          (some { i with openCount := i.openCount + 1 },
           setInode fs e.inode_sector { i with openCount := i.openCount + 1 }) := by
        simp [inode_open, hdsk]
      rw [hio] at hrem
      simp only [] at hrem
      cases hcond : i.isdir &&
          (decide (1 < i.openCount + 1) ||
            !dir_empty (setInode fs e.inode_sector
              { i with openCount := i.openCount + 1 }) e.inode_sector) with
      | true => rw [if_pos hcond] at hrem; simp at hrem
      | false =>
          rw [if_neg (by rw [hcond]; simp)] at hrem
          cases hdd : (setInode fs e.inode_sector
              { i with openCount := i.openCount + 1 }).disk d with
          | none => rw [hdd] at hrem; simp at hrem
          | some X =>
              rw [hdd] at hrem
              simp only [Prod.mk.injEq] at hrem
              have hfs2 := hrem.2
              have hXent : X.entries = entriesOf fs d := by
                by_cases hds : d = e.inode_sector
                · subst hds
                  rw [setInode] at hdd
                  simp at hdd
                  rw [← hdd]
                  rw [entriesOf, hdsk]
                · rw [setInode] at hdd
                  simp [hds] at hdd
                  rw [entriesOf, hdd]
              rw [← hfs2, entriesOf_inode_close, entriesOf_inode_remove]
              simp [entriesOf, setInode, hXent]

/-- Claim C5: for a directory `d`, a name of length `1..NAME_MAX` not already
present in `d`, and a sector `s` holding an inode: `dir_add` succeeds, a
subsequent `dir_lookup` returns an inode opened at sector `s`, and after any
subsequent successful `dir_remove` of the name, `dir_lookup` reports
not-found. -/
theorem dir_add_lookup_remove_roundtrip (fs : FS) (d : Nat) (n : String)
    (s : Nat) (di si : Inode)
    (hd : fs.disk d = some di) (hs : fs.disk s = some si)
    (hlen0 : 0 < n.length) (hlen : n.length ≤ NAME_MAX)
    (habsent : lookup fs d n = none) :
    (dir_add fs d n s).1 = true ∧
    (dir_lookup (dir_add fs d n s).2 d n).1 = some s ∧
    (∀ fs2, dir_remove (dir_add fs d n s).2 d n = (true, fs2) →
      (dir_lookup fs2 d n).1 = none) := by
  have hne : ¬(n = "" ∨ NAME_MAX < n.length) := by
    rintro (h1 | h2)
    · rw [h1] at hlen0
      simp [String.length] at hlen0
    · omega
  have hentry : strlcpyTrunc n = n := strlcpyTrunc_of_le n hlen
  have hadd : dir_add fs d n s =
      (true, setInode fs d
        { di with entries :=
            writeEntry di.entries (freeSlotIdx di.entries) (newEntry n s) }) := by
    rw [dir_add, if_neg hne, habsent, hd, newEntry]
  have hent0 : entriesOf fs d = di.entries := by rw [entriesOf, hd]
  have habsent' : lookupFrom n di.entries 0 = none := by
    rw [lookup, hent0] at habsent
    exact habsent
  have hmatch : ((newEntry n s).in_use && (newEntry n s).name == n) = true := by
    simp [newEntry, hentry]
  have hlk1 : lookup (dir_add fs d n s).2 d n =
      some (newEntry n s, freeSlotIdx di.entries) := by
    rw [hadd]
    rw [lookup]
    have hE0 : entriesOf (setInode fs d
        { di with entries :=
            writeEntry di.entries (freeSlotIdx di.entries) (newEntry n s) }) d =
        writeEntry di.entries (freeSlotIdx di.entries) (newEntry n s) := by
      simp [entriesOf, setInode]
    rw [hE0]
    have h2 := lookupFrom_writeEntry_hit n (newEntry n s) hmatch di.entries 0 habsent'
    rw [h2]
    simp
  have hs1 : ∃ Y, (dir_add fs d n s).2.disk s = some Y := by
    rw [hadd]
    by_cases hsd : s = d
    · simp [setInode, hsd]
    · simp [setInode, hsd, hs]
  obtain ⟨Y, hY⟩ := hs1
  have hio : inode_open (dir_add fs d n s).2 s =
      (some { Y with openCount := Y.openCount + 1 },
       setInode (dir_add fs d n s).2 s { Y with openCount := Y.openCount + 1 }) := by
    simp [inode_open, hY]
  refine ⟨by rw [hadd], ?_, ?_⟩
  · rw [dir_lookup, hlk1]
    simp only []
    have hsec : (newEntry n s).inode_sector = s := rfl
    rw [hsec, hio]
  · intro fs2 hrem
    have hents2 := dir_remove_true_entries (dir_add fs d n s).2 d n _ _ hlk1 fs2 hrem
    have hlk2 : lookup fs2 d n = none := by
      rw [lookup, hents2]
      have hE : entriesOf (dir_add fs d n s).2 d =
          writeEntry di.entries (freeSlotIdx di.entries) (newEntry n s) := by
        rw [hadd]
        simp [entriesOf, setInode]
      rw [hE]
      rw [set_writeEntry _ _ _ _ (freeSlotIdx_le_length di.entries)]
      exact lookupFrom_writeEntry_miss n _ (by simp) di.entries
        (freeSlotIdx di.entries) 0 habsent'
    rw [dir_lookup, hlk2]

/-- Witness for C5: add `"x" ↦ 5` to an empty root, look it up, remove it,
look it up again. -/
theorem dir_add_lookup_remove_roundtrip_witness :
    lookup fsW3 1 "x" = none ∧
    ((dir_add fsW3 1 "x" 5).1 = true ∧
      (dir_lookup (dir_add fsW3 1 "x" 5).2 1 "x").1 = some 5 ∧
      (∀ fs2, dir_remove (dir_add fsW3 1 "x" 5).2 1 "x" = (true, fs2) →
        (dir_lookup fs2 1 "x").1 = none)) :=
  ⟨by decide,
    dir_add_lookup_remove_roundtrip fsW3 1 "x" 5 emptyRootW fileInodeW3
      (by decide) (by decide) (by decide) (by decide) (by decide)⟩

theorem findSlash_none_of_no_slash :
    ∀ fp : List Char, (∀ c ∈ fp, c ≠ '/') → findSlash fp = none := by
  intro fp
  induction fp with
  | nil => intro _; rfl
  | cons c rest ih =>
      intro h
      rw [findSlash, if_neg (h c (by simp)), ih (fun a ha => h a (by simp [ha]))]
      rfl

theorem findSlash_append_slashfree (ys : List Char) :
    ∀ xs : List Char, (∀ c ∈ xs, c ≠ '/') →
      findSlash (xs ++ '/' :: ys) = some xs.length := by
  intro xs
  induction xs with
  | nil => intro _; simp [findSlash]
  | cons c rest ih =>
      intro h
      rw [List.cons_append, findSlash, if_neg (h c (by simp)),
        ih (fun a ha => h a (by simp [ha]))]
      rfl

theorem exists_first_slash_split (l : List Char) (h : '/' ∈ l) :
    ∃ a b, l = a ++ '/' :: b ∧ ∀ c ∈ a, c ≠ '/' := by
  induction l with
  | nil => simp at h
  | cons c rest ih =>
      by_cases hc : c = '/'
      · subst hc
        exact ⟨[], rest, rfl, by simp⟩
      · have hm : '/' ∈ rest := by
          rcases List.mem_cons.mp h with h1 | h1
          · exact absurd h1.symm hc
          · exact h1
        obtain ⟨a, b, rfl, ha⟩ := ih hm
        refine ⟨c :: a, b, rfl, ?_⟩
        intro x hx
        rcases List.mem_cons.mp hx with rfl | hx
        · exact hc
        · exact ha x hx

theorem drop_append_cons (a : List Char) (c : Char) (rest : List Char) :
    (a ++ c :: rest).drop (a.length + 1) = rest := by
  have h1 : a ++ c :: rest = (a ++ [c]) ++ rest := by simp
  have h2 : a.length + 1 = (a ++ [c]).length := by simp
  rw [h1, h2, List.drop_left]

theorem getLast?_append_of_ne_nil {α : Type} (l1 l2 : List α) (h : l2 ≠ []) :
    (l1 ++ l2).getLast? = l2.getLast? := by
  rw [List.getLast?_append]
  cases hl : l2.getLast? with
  | some x => rfl
  | none => exact absurd (List.getLast?_eq_none_iff.mp hl) h

theorem getLast?_cons_of_ne_nil {α : Type} (c : α) (l : List α) (h : l ≠ []) :
    (c :: l).getLast? = l.getLast? := by
  cases l with
  | nil => exact absurd rfl h
  | cons x xs => exact List.getLast?_cons_cons

/-- Any non-empty remaining filepath that ends in a slash makes the traversal
loop fail. -/
theorem travelF_trailing (fs : FS) :
    ∀ fuel d (fp : List Char), fp.length ≤ fuel → fp ≠ [] →
      fp.getLast? = some '/' → travelF fs fuel d fp = none := by
  intro fuel
  induction fuel with
  | zero =>
      intro d fp hlen hne _
      cases fp with
      | nil => exact absurd rfl hne
      | cons c rest => simp at hlen
  | succ fuel ih =>
      intro d fp hlen hne hlast
      have hm : '/' ∈ fp := mem_of_getLast?_eq_some hlast
      obtain ⟨a, b, rfl, ha⟩ := exists_first_slash_split _ hm
      rw [travelF, findSlash_append_slashfree b a ha]
      simp only []
      by_cases hend : a.length + 1 = (a ++ '/' :: b).length
      · rw [if_pos hend]
      · rw [if_neg hend]
        have hblen : (a ++ '/' :: b).length = a.length + 1 + b.length := by
          rw [List.length_append, List.length_cons]
          omega
        have hbne : b ≠ [] := by
          intro hb
          subst hb
          exact hend (by rw [hblen]; simp)
        have hblast : b.getLast? = some '/' := by
          rw [getLast?_append_of_ne_nil a ('/' :: b) (by simp)] at hlast
          rwa [getLast?_cons_of_ne_nil _ _ hbne] at hlast
        have hbfuel : b.length ≤ fuel := by
          rw [hblen] at hlen
          omega
        by_cases ha0 : a.length = 0
        · rw [if_pos ha0]
          have ha' : a = [] := List.length_eq_zero.mp ha0
          subst ha'
          simpa using ih d b hbfuel hbne hblast
        · rw [if_neg ha0]
          by_cases hlong : NAME_MAX < a.length
          · rw [if_pos hlong]
          · rw [if_neg hlong]
            cases hr : resolveStep fs d (String.mk ((a ++ '/' :: b).take a.length)) with
            | none => rfl
            | some s =>
                cases hdir : isDirSector fs s with
                | false => simp [hdir]
                | true =>
                    simp only [hdir, if_true]
                    rw [drop_append_cons]
                    exact ih s b hbfuel hbne hblast

/-- A non-final over-long component (an over-long slash-free block followed by
a slash) makes the traversal loop fail. -/
theorem travelF_long_component (fs : FS) :
    ∀ fuel d (l1 m l2 : List Char), (l1 ++ m ++ '/' :: l2).length ≤ fuel →
      (∀ c ∈ m, c ≠ '/') → NAME_MAX < m.length →
      travelF fs fuel d (l1 ++ m ++ '/' :: l2) = none := by
  intro fuel
  induction fuel with
  | zero =>
      intro d l1 m l2 hlen _ _
      simp at hlen
  | succ fuel ih =>
      intro d l1 m l2 hlen hm hlong
      by_cases hsl : '/' ∈ l1
      · obtain ⟨a, b, rfl, ha⟩ := exists_first_slash_split _ hsl
        have hshape : (a ++ '/' :: b) ++ m ++ '/' :: l2 =
            a ++ '/' :: (b ++ m ++ '/' :: l2) := by simp
        rw [hshape, travelF, findSlash_append_slashfree _ a ha]
        simp only []
        by_cases hend : a.length + 1 = (a ++ '/' :: (b ++ m ++ '/' :: l2)).length
        · rw [if_pos hend]
        · rw [if_neg hend]
          have hfuel' : (b ++ m ++ '/' :: l2).length ≤ fuel := by
            rw [hshape] at hlen
            simp at hlen ⊢
            omega
          by_cases ha0 : a.length = 0
          · rw [if_pos ha0]
            have ha' : a = [] := List.length_eq_zero.mp ha0
            subst ha'
            simpa using ih d b m l2 hfuel' hm hlong
          · rw [if_neg ha0]
            by_cases halong : NAME_MAX < a.length
            · rw [if_pos halong]
            · rw [if_neg halong]
              cases hr : resolveStep fs d
                  (String.mk ((a ++ '/' :: (b ++ m ++ '/' :: l2)).take a.length)) with
              | none => rfl
              | some s =>
                  cases hdir : isDirSector fs s with
                  | false => simp [hdir]
                  | true =>
                      simp only [hdir, if_true]
                      rw [drop_append_cons]
                      exact ih s b m l2 hfuel' hm hlong
      · have hfree : ∀ c ∈ l1 ++ m, c ≠ '/' := by
          intro c hc
          rcases List.mem_append.mp hc with hc | hc
          · exact fun he => hsl (he ▸ hc)
          · exact hm c hc
        have hshape : l1 ++ m ++ '/' :: l2 = (l1 ++ m) ++ '/' :: l2 := by simp
        rw [hshape, travelF, findSlash_append_slashfree _ _ hfree]
        simp only []
        by_cases hend : (l1 ++ m).length + 1 = ((l1 ++ m) ++ '/' :: l2).length
        · rw [if_pos hend]
        · rw [if_neg hend]
          have hzero : ¬((l1 ++ m).length = 0) := by
            simp
            intro _ h2
            rw [h2] at hlong
            simp [NAME_MAX] at hlong
          rw [if_neg hzero]
          have hbig : NAME_MAX < (l1 ++ m).length := by
            simp
            omega
          rw [if_pos hbig]

/-- A redundant leading slash of the remaining filepath is skipped. -/
theorem travelF_skip_slash (fs : FS) (fuel d : Nat) (fp : List Char)
    (hne : fp ≠ []) :
    travelF fs (fuel + 1) d ('/' :: fp) = travelF fs fuel d fp := by
  have hf : findSlash ('/' :: fp) = some 0 := by simp [findSlash]
  rw [travelF, hf]
  simp only []
  rw [if_neg (by simp [List.length_eq_zero]; exact hne)]
  simp only [if_true]
  rfl

/-- One full component step of the traversal loop. -/
theorem travelF_step (fs : FS) (fuel d : Nat) (xs ys : List Char)
    (hne : xs ≠ []) (hxs : ∀ c ∈ xs, c ≠ '/') (hlen : xs.length ≤ NAME_MAX)
    (hys : ys ≠ []) :
    travelF fs (fuel + 1) d (xs ++ '/' :: ys) =
      (match resolveStep fs d (String.mk xs) with
       | none => none
       | some s => if isDirSector fs s then travelF fs fuel s ys else none) := by
  rw [travelF, findSlash_append_slashfree ys xs hxs]
  simp only []
  have h1 : ¬(xs.length + 1 = (xs ++ '/' :: ys).length) := by
    rw [List.length_append, List.length_cons]
    intro h
    have : ys.length = 0 := by omega
    exact hys (List.length_eq_zero.mp this)
  have h2 : ¬(xs.length = 0) := by
    intro h
    exact hne (List.length_eq_zero.mp h)
  rw [if_neg h1, if_neg h2, if_neg (by omega), List.take_left, drop_append_cons]

/-- Claim C7 counterexample: the filepath `"/"` ends in a trailing slash, yet
`dir_open_dirs` does not reject it — the leading slash is consumed as the
root anchor, the loop body never runs, and the root directory itself is
returned. -/
theorem open_dirs_root_slash_accepted :
    ("/" : String).data.getLast? = some '/' ∧
    dir_open_dirs rootOnlyFS 0 "/" = some ROOT_DIR_SECTOR := by
  constructor
  · decide
  · decide

/-- Claim C7 (amended): `dir_open_dirs` collapses repeated slash separators —
resolving `"/a//b/c"` gives the same result as `"/a/b/c"` over any filesystem
and working directory — and rejects every filepath ending in a trailing
slash, except the bare root path `"/"` (whose leading slash is consumed as
the root anchor before the loop's trailing-slash check can see it). -/
theorem open_dirs_slash_handling (fs : FS) (cwd : Nat) :
    dir_open_dirs fs cwd "/a//b/c" = dir_open_dirs fs cwd "/a/b/c" ∧
    (∀ fp : String, fp.data.getLast? = some '/' → fp.data ≠ ['/'] →
      dir_open_dirs fs cwd fp = none) := by
  constructor
  · have h1 : ("/a//b/c" : String).data = ['/', 'a', '/', '/', 'b', '/', 'c'] := rfl
    have h2 : ("/a/b/c" : String).data = ['/', 'a', '/', 'b', '/', 'c'] := rfl
    simp only [dir_open_dirs, h1, h2]
    by_cases hroot : isDirSector fs ROOT_DIR_SECTOR
    · simp only [hroot, if_true]
      show travelF fs 6 ROOT_DIR_SECTOR ['a', '/', '/', 'b', '/', 'c'] =
        travelF fs 5 ROOT_DIR_SECTOR ['a', '/', 'b', '/', 'c']
      have e1 : (['a', '/', '/', 'b', '/', 'c'] : List Char) =
          ['a'] ++ '/' :: ('/' :: ['b', '/', 'c']) := rfl
      have e2 : (['a', '/', 'b', '/', 'c'] : List Char) =
          ['a'] ++ '/' :: ['b', '/', 'c'] := rfl
      have hL : travelF fs 6 ROOT_DIR_SECTOR ['a', '/', '/', 'b', '/', 'c'] =
          (match resolveStep fs ROOT_DIR_SECTOR (String.mk ['a']) with
           | none => none
           | some s => if isDirSector fs s then
               travelF fs 5 s ('/' :: ['b', '/', 'c']) else none) := by
        rw [e1]
        exact travelF_step fs 5 ROOT_DIR_SECTOR ['a'] ('/' :: ['b', '/', 'c'])
          (by simp) (by decide) (by decide) (by simp)
      have hR : travelF fs 5 ROOT_DIR_SECTOR ['a', '/', 'b', '/', 'c'] =
          (match resolveStep fs ROOT_DIR_SECTOR (String.mk ['a']) with
           | none => none
           | some s => if isDirSector fs s then
               travelF fs 4 s ['b', '/', 'c'] else none) := by
        rw [e2]
        exact travelF_step fs 4 ROOT_DIR_SECTOR ['a'] ['b', '/', 'c']
          (by simp) (by decide) (by decide) (by simp)
      rw [hL, hR]
      cases hr : resolveStep fs ROOT_DIR_SECTOR (String.mk ['a']) with
      | none => rfl
      | some s =>
          simp only []
          cases hdir : isDirSector fs s with
          | false => simp [hdir]
          | true =>
              simp only [hdir, if_true]
              exact travelF_skip_slash fs 4 s ['b', '/', 'c'] (by simp)
    · simp [hroot]
  · intro fp hlast hne1
    cases hdata : fp.data with
    | nil => rw [hdata] at hlast; simp at hlast
    | cons c rest =>
        rw [hdata] at hlast hne1
        rw [dir_open_dirs, hdata]
        simp only []
        by_cases hc : c = '/'
        · subst hc
          rw [if_pos rfl]
          have hrne : rest ≠ [] := by
            intro hr
            exact hne1 (by rw [hr])
          have hrlast : rest.getLast? = some '/' := by
            rwa [getLast?_cons_of_ne_nil _ _ hrne] at hlast
          by_cases hroot : isDirSector fs ROOT_DIR_SECTOR
          · rw [if_pos hroot]
            exact travelF_trailing fs rest.length ROOT_DIR_SECTOR rest
              (Nat.le_refl _) hrne hrlast
          · rw [if_neg hroot]
        · rw [if_neg hc]
          by_cases hcwd : isDirSector fs cwd
          · rw [if_pos hcwd]
            exact travelF_trailing fs (c :: rest).length cwd (c :: rest)
              (Nat.le_refl _) (by simp) hlast
          · rw [if_neg hcwd]

/-- Witness for the amended C7: `"a/"` ends in a slash and is not `"/"`, and
resolution rejects it. -/
theorem open_dirs_slash_handling_witness :
    ("a/" : String).data.getLast? = some '/' ∧
    ("a/" : String).data ≠ ['/'] ∧
    dir_open_dirs rootOnlyFS 0 "a/" = none :=
  ⟨by decide, by decide,
    (open_dirs_slash_handling rootOnlyFS 0).2 "a/" (by decide) (by decide)⟩

/-- Claim C8 counterexample: the final component of a filepath is never
length-checked — `dir_open_dirs` resolves only up to the parent of the last
component and returns before examining it, so a 15-character (`> NAME_MAX`)
final component is accepted. -/
theorem open_dirs_long_final_component_accepted :
    ("/aaaaaaaaaaaaaaa" : String).data =
      '/' :: ("aaaaaaaaaaaaaaa" : String).data ∧
    NAME_MAX < ("aaaaaaaaaaaaaaa" : String).length ∧
    dir_open_dirs rootOnlyFS 0 "/aaaaaaaaaaaaaaa" = some ROOT_DIR_SECTOR := by
  refine ⟨by decide, by decide, by decide⟩

/-- Claim C8 (amended): every component other than the final one — an
over-long maximal slash-free block followed by a `/` — fails the whole
resolution; the final component is not checked (see the counterexample). -/
theorem open_dirs_long_component (fs : FS) (cwd : Nat) (fp : String)
    (l1 m l2 : List Char) (hdecomp : fp.data = l1 ++ m ++ '/' :: l2)
    (hm : ∀ c ∈ m, c ≠ '/') (hlong : NAME_MAX < m.length) :
    dir_open_dirs fs cwd fp = none := by
  rw [dir_open_dirs, hdecomp]
  have hmne : m ≠ [] := by
    intro h
    rw [h] at hlong
    simp [NAME_MAX] at hlong
  cases hl1 : l1 with
  | nil =>
      subst hl1
      cases hml : m with
      | nil => exact absurd hml hmne
      | cons c mrest =>
          simp only [List.nil_append, List.cons_append]
          rw [if_neg (hm c (by rw [hml]; simp))]
          by_cases hcwd : isDirSector fs cwd
          · rw [if_pos hcwd]
            have := travelF_long_component fs
              (c :: (mrest ++ '/' :: l2)).length cwd [] (c :: mrest) l2
              (by simp) (by rw [← hml]; exact hm) (by rw [← hml]; exact hlong)
            simpa using this
          · rw [if_neg hcwd]
  | cons c l1rest =>
      subst hl1
      simp only [List.cons_append]
      by_cases hc : c = '/'
      · subst hc
        rw [if_pos rfl]
        by_cases hroot : isDirSector fs ROOT_DIR_SECTOR
        · rw [if_pos hroot]
          exact travelF_long_component fs _ ROOT_DIR_SECTOR l1rest m l2
            (Nat.le_refl _) hm hlong
        · rw [if_neg hroot]
      · rw [if_neg hc]
        by_cases hcwd : isDirSector fs cwd
        · rw [if_pos hcwd]
          have := travelF_long_component fs
            (c :: (l1rest ++ m ++ '/' :: l2)).length cwd (c :: l1rest) m l2
            (by simp) hm hlong
          simpa using this
        · rw [if_neg hcwd]

/-- Witness for the amended C8: a 15-character first component followed by a
slash fails resolution. -/
theorem open_dirs_long_component_witness :
    ("aaaaaaaaaaaaaaa/x" : String).data =
      ("aaaaaaaaaaaaaaa" : String).data ++ '/' :: ['x'] ∧
    dir_open_dirs rootOnlyFS 0 "aaaaaaaaaaaaaaa/x" = none :=
  ⟨by decide,
    open_dirs_long_component rootOnlyFS 0 "aaaaaaaaaaaaaaa/x"
      [] ("aaaaaaaaaaaaaaa" : String).data ['x']
      (by decide) (by decide) (by decide)⟩

theorem locked_replicate (l : Nat) (held : List Nat)
    (h : held.contains l = true) :
    ∀ n (es : List LEv),
      locked held (List.replicate n (LEv.touch l) ++ es) = locked held es := by
  intro n
  induction n with
  | zero => intro es; rfl
  | succ n ih =>
      intro es
      rw [List.replicate_succ, List.cons_append, locked, h, Bool.true_and, ih]

/-- Claim C3: `dir_add`, `dir_remove` (both the file and the directory
variant), `dir_readdir`, `dir_empty`, and the `lookup` scan as called via
`dir_lookup` (the `dir_open_dirs` lookup step, the code's only such call
site) all hold the directory's per-inode lock across every access of their
critical section. -/
theorem dir_locking_discipline (p c l n1 n2 : Nat) :
    wellLocked (dir_add_evs l n1 n2) = true ∧
    wellLocked (dir_remove_file_evs p n1) = true ∧
    wellLocked (dir_remove_dir_evs p c n1 n2) = true ∧
    wellLocked (dir_readdir_evs l n1) = true ∧
    wellLocked (dir_empty_evs l n1) = true ∧
    wellLocked (dir_open_dirs_step_evs p n1) = true := by
  have hself : ∀ x : Nat, ([x].contains x) = true := by intro x; simp
  have hhead : ∀ x y : Nat, (List.contains (x :: y :: []) x) = true := by
    intro x y; simp
  refine ⟨?_, ?_, ?_, ?_, ?_, ?_⟩
  · rw [wellLocked, dir_add_evs, locked, lookup_evs, List.append_assoc,
      locked_replicate l [l] (hself l), locked_replicate l [l] (hself l)]
    simp [locked]
  · rw [wellLocked, dir_remove_file_evs, locked, lookup_evs,
      locked_replicate p [p] (hself p)]
    simp [locked]
  · rw [wellLocked, dir_remove_dir_evs, locked, lookup_evs, List.append_assoc,
      locked_replicate p [p] (hself p), List.cons_append, locked,
      List.append_assoc, locked_replicate c [c, p] (hhead c p)]
    simp [locked]
  · rw [wellLocked, dir_readdir_evs, locked,
      locked_replicate l [l] (hself l)]
    simp [locked]
  · rw [wellLocked, dir_empty_evs, locked,
      locked_replicate l [l] (hself l)]
    simp [locked]
  · rw [wellLocked, dir_open_dirs_step_evs, locked, lookup_evs,
      locked_replicate p [p] (hself p)]
    simp [locked]

/-- The standalone `dir_lookup` entry point itself contains no lock events:
its scan is bracketed by its caller (`dir_open_dirs` above); called with no
lock held, the very same scan would be unprotected.  This fact documents why
the discipline is attributed to the call path, not to `dir_lookup`'s own
body. -/
theorem dir_lookup_alone_unprotected (l : Nat) (n : Nat) (h : 0 < n) :
    wellLocked (lookup_evs l n) = false := by
  cases n with
  | zero => exact absurd h (by simp)
  | succ n =>
      rw [wellLocked, lookup_evs, List.replicate_succ, locked]
      simp

end Pintos
